import Mathlib

/-!
Verification of the Shamir secret sharing implementation
(`shamir-algorithm/src/lib.rs`): GF(256) table arithmetic, polynomial
generation and Horner evaluation, Lagrange interpolation at 0, and the
`split` / `join` API.
-/

namespace Shamir

/-- Modelled from the spec: the repository's `tables.rs` (constants `EXP`
and `LOG`) is not among the provided sources.  Per spec §4.1 the tables are
the discrete-antilog table of GF(256) built from a fixed irreducible
degree-8 polynomial and a fixed generator; we use the standard polynomial
x^8+x^4+x^3+x+1 (0x11B) with generator 3.  The 255 antilog entries are
packed little-endian, one byte each, into this natural number. -/
def EXPN : ℕ := 121466575815500734415996836054882879791832871126464106601702187317037704638720699736399773789881350966450612456712855012027411276600174289287471020404625812305602624065235109912861702064162581238381248958448422203687095403783548669481020115429473714815130546491650907227391014769411226625179674495964331439187933946584331397333639979447433688574122779091165484305754955373075414835846686739481168846087332879005575464100018941681806164995707250399423063311368515928344698269234575261926727907427524598329539937222090466892085999338983806607642276495436692919915470849325341672618663070658392065151738926641076044545

/-- Modelled from the spec: the 256 discrete-log entries packed
little-endian, one byte each (entry 0 is unused by the code). -/
def LOGN : ℕ := 939374623831894136699086600277250597547650664638770418422125146541797353646788332867483593573384618611044815625336497665827114626705134492515730415652478061620339993830966980270842846318821775850471098591710629241171812800746666233448222972174585295916389942636813666312872914849454985560152530477328703759683306625234997237483834721220409437442253146756845415190424543171129629468776480674528486868811725071010351012234056630775688111116293610821126543142160426617079940511630006820862697466582575257349116925728488930366609138264019883664906661504235885380294353134295748489096855100647154935187045898006656778240

/-- `EXP[i]`: byte `i` of the packed antilog table. -/
def EXP (i : ℕ) : ℕ := EXPN / 256 ^ i % 256

/-- `LOG[i]`: byte `i` of the packed log table. -/
def LOG (i : ℕ) : ℕ := LOGN / 256 ^ i % 256

/-- `GFC256::add` (bitwise XOR). -/
def addT (a b : ℕ) : ℕ := a ^^^ b

/-- `GFC256::sub` (bitwise XOR). -/
def subT (a b : ℕ) : ℕ := a ^^^ b

/-- `GFC256::mul`: 0 if either operand is 0, else `EXP[(LOG a + LOG b) % 255]`. -/
def mulT (a b : ℕ) : ℕ := if a = 0 ∨ b = 0 then 0 else EXP ((LOG a + LOG b) % 255)

/-- `GFC256::div`: `none` models the `panic!` on a zero divisor; otherwise
0 for a zero dividend, else `EXP[(LOG a - LOG b + 255) % 255]` with the
index computed in signed arithmetic as in the source. -/
def divT (a b : ℕ) : Option ℕ :=
  if b = 0 then none
  else if a = 0 then some 0
  else some (EXP ((((LOG a : ℤ) - (LOG b : ℤ) + 255) % 255).toNat))

/-- The multiplicative inverse read off the tables (not a function of the
source; used only to phrase field structure). -/
def invT (a : ℕ) : ℕ := if a = 0 then 0 else EXP ((255 - LOG a) % 255)

/-- Multiplication by x in GF(256) with reducing polynomial 0x11B
(xtime); used only to state the generator recurrence of the tables. -/
def xtime (v : ℕ) : ℕ := if v.testBit 7 then 2 * v ^^^ 283 else 2 * v

/-- Multiplication by the table generator 3: `3·v = xtime v ⊕ v`. -/
def mul3 (v : ℕ) : ℕ := xtime v ^^^ v

/-- Iterated multiplication by the generator. -/
def mul3pow : ℕ → ℕ → ℕ
  | 0, v => v
  | n + 1, v => mul3 (mul3pow n v)

/-! Table facts certified by finite computation. -/

theorem exp_lt (i : ℕ) : EXP i < 256 := Nat.mod_lt _ (by norm_num)

theorem log_lt (a : ℕ) : LOG a < 256 := Nat.mod_lt _ (by norm_num)

set_option maxRecDepth 2000 in
theorem log_lt255 : ∀ a < 256, 0 < a → LOG a < 255 := by decide

set_option maxRecDepth 2000 in
theorem exp_log : ∀ a < 256, 0 < a → EXP (LOG a) = a := by decide

set_option maxRecDepth 2000 in
theorem log_exp : ∀ i < 255, LOG (EXP i) = i := by decide

set_option maxRecDepth 2000 in
theorem exp_pos : ∀ i < 255, 0 < EXP i := by decide

theorem log_one_eq : LOG 1 = 0 := by decide

/-! Derived algebraic laws of the table operations. -/

theorem mulT_comm (a b : ℕ) : mulT a b = mulT b a := by
  by_cases h : a = 0 ∨ b = 0
  · simp only [mulT]
    rw [if_pos h, if_pos (Or.symm h)]
  · simp only [mulT]
    rw [if_neg h, if_neg (fun hh => h (Or.symm hh)), Nat.add_comm]

theorem zero_mulT (b : ℕ) : mulT 0 b = 0 := by simp [mulT]

theorem mulT_zero (a : ℕ) : mulT a 0 = 0 := by simp [mulT]

theorem mulT_lt (a b : ℕ) : mulT a b < 256 := by
  unfold mulT
  split
  · norm_num
  · exact exp_lt _

theorem mulT_one {a : ℕ} (ha : a < 256) : mulT a 1 = a := by
  rcases Nat.eq_zero_or_pos a with h | h
  · simp [h, mulT]
  · unfold mulT
    rw [if_neg (by omega), log_one_eq, Nat.add_zero,
      Nat.mod_eq_of_lt (log_lt255 a ha h), exp_log a ha h]

theorem mulT_pos {a b : ℕ} (ha : a < 256) (hb : b < 256) (ha0 : 0 < a) (hb0 : 0 < b) :
    0 < mulT a b := by
  unfold mulT
  rw [if_neg (by omega)]
  exact exp_pos _ (Nat.mod_lt _ (by norm_num))

theorem mulT_pos_eq {a b : ℕ} (ha0 : 0 < a) (hb0 : 0 < b) :
    mulT a b = EXP ((LOG a + LOG b) % 255) := by
  unfold mulT
  rw [if_neg (by omega)]

theorem log_mulT {a b : ℕ} (ha : a < 256) (hb : b < 256) (ha0 : 0 < a) (hb0 : 0 < b) :
    LOG (mulT a b) = (LOG a + LOG b) % 255 := by
  rw [mulT_pos_eq ha0 hb0]
  exact log_exp _ (Nat.mod_lt _ (by norm_num))

theorem mulT_assoc {a b c : ℕ} (ha : a < 256) (hb : b < 256) (hc : c < 256) :
    mulT (mulT a b) c = mulT a (mulT b c) := by
  rcases Nat.eq_zero_or_pos a with ha0 | ha0
  · simp [ha0, zero_mulT]
  rcases Nat.eq_zero_or_pos b with hb0 | hb0
  · simp [hb0, zero_mulT, mulT_zero]
  rcases Nat.eq_zero_or_pos c with hc0 | hc0
  · simp [hc0, mulT_zero]
  have hab := mulT_pos ha hb ha0 hb0
  have hbc := mulT_pos hb hc hb0 hc0
  rw [mulT_pos_eq hab hc0, mulT_pos_eq ha0 hbc,
    log_mulT ha hb ha0 hb0, log_mulT hb hc hb0 hc0,
    Nat.mod_add_mod, Nat.add_mod_mod, Nat.add_assoc]

/-! Distributivity of table multiplication over XOR.  The antilog table is
generated by repeated multiplication by 3 (`exp_succ` below, a 255-case
computation), multiplication by 3 is an XOR-linear map on bytes, and for
nonzero arguments `mulT a b` is `(mul by 3)^(LOG a)` applied to `b`. -/

theorem two_mul_xor (b c : ℕ) : 2 * (b ^^^ c) = 2 * b ^^^ 2 * c := by
  have h : ∀ x : ℕ, 2 * x = x <<< 1 := fun x => by
    rw [Nat.shiftLeft_eq, pow_one, Nat.mul_comm]
  rw [h, h, h]
  apply Nat.eq_of_testBit_eq
  intro i
  rw [Nat.testBit_xor, Nat.testBit_shiftLeft, Nat.testBit_shiftLeft,
    Nat.testBit_shiftLeft, Nat.testBit_xor]
  cases hi : decide (1 ≤ i) <;> cases hb : b.testBit (i - 1) <;>
    cases hc : c.testBit (i - 1) <;> rfl

theorem xor_cancel_mid (x y k : ℕ) : (x ^^^ k) ^^^ (y ^^^ k) = x ^^^ y := by
  rw [Nat.xor_comm y k, ← Nat.xor_assoc, Nat.xor_assoc x k k, Nat.xor_self,
    Nat.xor_zero]

theorem xor_mix (p q r s : ℕ) : (p ^^^ q) ^^^ (r ^^^ s) = (p ^^^ r) ^^^ (q ^^^ s) := by
  rw [Nat.xor_assoc, ← Nat.xor_assoc q r s, Nat.xor_comm q r, Nat.xor_assoc r q s,
    ← Nat.xor_assoc]

theorem xor_lt256 {a b : ℕ} (ha : a < 256) (hb : b < 256) : a ^^^ b < 256 := by
  have h := Nat.xor_lt_two_pow (n := 8) (by norm_num at ha ⊢; exact ha)
    (by norm_num at hb ⊢; exact hb)
  norm_num at h
  exact h

theorem xtime_xor (b c : ℕ) : xtime (b ^^^ c) = xtime b ^^^ xtime c := by
  unfold xtime
  rw [Nat.testBit_xor]
  cases hb : b.testBit 7 <;> cases hc : c.testBit 7
  · show 2 * (b ^^^ c) = 2 * b ^^^ 2 * c
    exact two_mul_xor b c
  · show 2 * (b ^^^ c) ^^^ 283 = 2 * b ^^^ (2 * c ^^^ 283)
    rw [two_mul_xor, Nat.xor_assoc]
  · show 2 * (b ^^^ c) ^^^ 283 = (2 * b ^^^ 283) ^^^ 2 * c
    rw [two_mul_xor, Nat.xor_comm (2 * b ^^^ 283) (2 * c), ← Nat.xor_assoc,
      Nat.xor_comm (2 * c) (2 * b)]
  · show 2 * (b ^^^ c) = (2 * b ^^^ 283) ^^^ (2 * c ^^^ 283)
    rw [two_mul_xor, xor_cancel_mid]

theorem mul3_xor (b c : ℕ) : mul3 (b ^^^ c) = mul3 b ^^^ mul3 c := by
  unfold mul3
  rw [xtime_xor, xor_mix]

theorem mul3pow_zero (v : ℕ) : mul3pow 0 v = v := rfl

theorem mul3pow_succ (n v : ℕ) : mul3pow (n + 1) v = mul3 (mul3pow n v) := rfl

theorem mul3pow_xor (n : ℕ) : ∀ b c : ℕ, mul3pow n (b ^^^ c) = mul3pow n b ^^^ mul3pow n c := by
  induction n with
  | zero => intro b c; rfl
  | succ m ih =>
    intro b c
    show mul3 (mul3pow m (b ^^^ c)) = mul3 (mul3pow m b) ^^^ mul3 (mul3pow m c)
    rw [ih b c, mul3_xor]

set_option maxRecDepth 2000 in
theorem exp_succ : ∀ i < 255, EXP ((i + 1) % 255) = mul3 (EXP i) := by decide

theorem exp_add_pow (j : ℕ) : ∀ i < 255, EXP ((i + j) % 255) = mul3pow j (EXP i) := by
  induction j with
  | zero =>
    intro i hi
    rw [Nat.add_zero, Nat.mod_eq_of_lt hi, mul3pow_zero]
  | succ m ih =>
    intro i hi
    have h1 : (i + (m + 1)) % 255 = ((i + m) % 255 + 1) % 255 := by omega
    rw [h1, exp_succ ((i + m) % 255) (Nat.mod_lt _ (by norm_num)), ih i hi,
      mul3pow_succ]

theorem mulT_eq_mul3pow {a b : ℕ} (ha : a < 256) (hb : b < 256)
    (ha0 : 0 < a) (hb0 : 0 < b) : mulT a b = mul3pow (LOG a) b := by
  rw [mulT_comm, mulT_pos_eq hb0 ha0,
    exp_add_pow (LOG a) (LOG b) (log_lt255 b hb hb0), exp_log b hb hb0]

theorem mulT_xor {a b c : ℕ} (ha : a < 256) (hb : b < 256) (hc : c < 256) :
    mulT a (b ^^^ c) = mulT a b ^^^ mulT a c := by
  rcases Nat.eq_zero_or_pos a with ha0 | ha0
  · subst ha0
    rw [zero_mulT, zero_mulT, zero_mulT, Nat.xor_self]
  rcases Nat.eq_zero_or_pos b with hb0 | hb0
  · subst hb0
    rw [mulT_zero, Nat.zero_xor, Nat.zero_xor]
  rcases Nat.eq_zero_or_pos c with hc0 | hc0
  · subst hc0
    rw [mulT_zero, Nat.xor_zero, Nat.xor_zero]
  by_cases hbc : b = c
  · subst hbc
    rw [Nat.xor_self, mulT_zero, Nat.xor_self]
  · have hbc0 : 0 < b ^^^ c :=
      Nat.pos_of_ne_zero (fun h0 => hbc (Nat.xor_eq_zero.mp h0))
    rw [mulT_eq_mul3pow ha (xor_lt256 hb hc) ha0 hbc0,
      mulT_eq_mul3pow ha hb ha0 hb0, mulT_eq_mul3pow ha hc ha0 hc0]
    exact mul3pow_xor (LOG a) b c

theorem xor_mulT {a b c : ℕ} (ha : a < 256) (hb : b < 256) (hc : c < 256) :
    mulT (a ^^^ b) c = mulT a c ^^^ mulT b c := by
  rw [mulT_comm, mulT_comm a c, mulT_comm b c]
  exact mulT_xor hc ha hb

/-! The multiplicative inverse and the division bridge. -/

theorem invT_lt (a : ℕ) : invT a < 256 := by
  unfold invT
  split
  · norm_num
  · exact exp_lt _

theorem invT_pos {a : ℕ} (ha : a < 256) (ha0 : 0 < a) : 0 < invT a := by
  unfold invT
  rw [if_neg (by omega)]
  exact exp_pos _ (Nat.mod_lt _ (by norm_num))

set_option maxRecDepth 2000 in
theorem mulT_invT_cancel : ∀ a < 256, 0 < a → mulT a (invT a) = 1 := by decide

theorem divT_eq_mulT_invT {a b : ℕ} (ha : a < 256) (hb : b < 256) (hb0 : 0 < b) :
    divT a b = some (mulT a (invT b)) := by
  rcases Nat.eq_zero_or_pos a with ha0 | ha0
  · subst ha0
    unfold divT
    rw [if_neg (by omega), if_pos rfl, zero_mulT]
  have hla := log_lt255 a ha ha0
  have hlb := log_lt255 b hb hb0
  have hexp : 0 < EXP ((255 - LOG b) % 255) := exp_pos _ (Nat.mod_lt _ (by norm_num))
  unfold divT
  rw [if_neg (by omega), if_neg (by omega)]
  rw [show invT b = EXP ((255 - LOG b) % 255) from by unfold invT; rw [if_neg (by omega)]]
  rw [mulT_pos_eq ha0 hexp, log_exp _ (Nat.mod_lt _ (by norm_num))]
  congr 2
  have h2 : ((LOG a : ℤ) - (LOG b : ℤ) + 255) = ((LOG a + 255 - LOG b : ℕ) : ℤ) := by
    omega
  rw [h2, show ((255 : ℤ) = ((255 : ℕ) : ℤ)) from rfl, ← Int.natCast_mod, Int.toNat_natCast]
  omega

/-! `GF(256)` as a type, with the field structure induced by the table
operations.  Addition is XOR and multiplication is `mulT`; this packages
the laws proved above so that Mathlib's Lagrange interpolation theory
applies. -/

structure GF256 where
  val : ℕ
  lt : val < 256
deriving DecidableEq

theorem GF256.ext {a b : GF256} (h : a.val = b.val) : a = b := by
  cases a
  cases b
  simpa using h

instance : Zero GF256 := ⟨⟨0, by norm_num⟩⟩

instance : One GF256 := ⟨⟨1, by norm_num⟩⟩

instance : Add GF256 := ⟨fun a b => ⟨a.val ^^^ b.val, xor_lt256 a.lt b.lt⟩⟩

instance : Mul GF256 := ⟨fun a b => ⟨mulT a.val b.val, mulT_lt _ _⟩⟩

instance : Neg GF256 := ⟨fun a => a⟩

instance : Inv GF256 := ⟨fun a => ⟨invT a.val, invT_lt _⟩⟩

instance : Field GF256 :=
  Field.ofMinimalAxioms GF256
    (fun _ _ _ => GF256.ext (Nat.xor_assoc _ _ _))
    (fun _ => GF256.ext (Nat.zero_xor _))
    (fun _ => GF256.ext (Nat.xor_self _))
    (fun a b c => GF256.ext (mulT_assoc a.lt b.lt c.lt))
    (fun _ _ => GF256.ext (mulT_comm _ _))
    (fun a => GF256.ext (by
      show mulT 1 a.val = a.val
      rw [mulT_comm]
      exact mulT_one a.lt))
    (fun a ha => GF256.ext (by
      show mulT a.val (invT a.val) = 1
      have hv : 0 < a.val := by
        rcases Nat.eq_zero_or_pos a.val with h | h
        · exact absurd (GF256.ext (h : a.val = GF256.val 0) : a = 0) ha
        · exact h
      exact mulT_invT_cancel a.val a.lt hv))
    (GF256.ext rfl)
    (fun a b c => GF256.ext (mulT_xor a.lt b.lt c.lt))
    ⟨⟨0, by norm_num⟩, ⟨1, by norm_num⟩, by decide⟩

theorem gf_add_val (a b : GF256) : (a + b).val = a.val ^^^ b.val := by rfl

theorem gf_mul_val (a b : GF256) : (a * b).val = mulT a.val b.val := by rfl

theorem gf_zero_val : (0 : GF256).val = 0 := by rfl

theorem gf_one_val : (1 : GF256).val = 1 := by rfl

theorem gf_inv_val (a : GF256) : a⁻¹.val = invT a.val := by rfl

theorem gf_neg (a : GF256) : -a = a := by rfl

theorem gf_sub (a b : GF256) : a - b = a + b := by
  rw [sub_eq_add_neg, gf_neg]

/-- Cast a byte-valued natural into `GF256` (reducing mod 256). -/
def toGF (n : ℕ) : GF256 := ⟨n % 256, Nat.mod_lt _ (by norm_num)⟩

theorem toGF_val {n : ℕ} (h : n < 256) : (toGF n).val = n := Nat.mod_eq_of_lt h

theorem toGF_inj {m n : ℕ} (hm : m < 256) (hn : n < 256) (h : toGF m = toGF n) :
    m = n := by
  have := congrArg GF256.val h
  rwa [toGF_val hm, toGF_val hn] at this

/-! The Rust functions of `shamir-algorithm/src/lib.rs`, embedded over `ℕ`
(bytes) and `ℤ` (the `i32` share indices). -/

/-- `GFC256::eval`: Horner evaluation, folding the coefficients from the
highest degree down, `result = add(mul(result, x), coeff)`. -/
def evalT (p : List ℕ) (x : ℕ) : ℕ :=
  p.foldr (fun coeff result => addT (mulT result x) coeff) 0

/-- `GFC256::generate`: coefficient 0 is the secret byte, coefficients
`1..=degree` are drawn from the random stream (`p[i] = stream (i-1)`), and
the leading coefficient is resampled from positions `degree, degree+1, …`
until nonzero.  The hypothesis `h` states that the stream eventually
yields a nonzero byte there, which is exactly the code's termination
condition for its `while` loop. -/
def generate (degree : ℕ) (c : ℕ) (stream : ℕ → ℕ)
    (h : ∃ j, stream (degree + j) % 256 ≠ 0) : List ℕ :=
  let init : List ℕ := c :: (List.range degree).map (fun i => stream i % 256)
  let last0 := init.getD degree 0
  init.take degree ++ [if last0 = 0 then stream (degree + Nat.find h) % 256 else last0]

/-- Body of the inner `for j` loop of `GFC256::interpolate`:
`li = mul(li, div(num, den))`, skipping `j = i`; `none` propagates the
panic of `div` on a zero denominator. -/
def innerStep (points : List (ℕ × ℕ)) (i li j : ℕ) : Option ℕ :=
  if i ≠ j then
    match divT (points.getD j (0, 0)).1
        (subT (points.getD i (0, 0)).1 (points.getD j (0, 0)).1) with
    | none => none
    | some q => some (mulT li q)
  else some li

/-- The inner `for j` loop: `li` starts at 1. -/
def liT (points : List (ℕ × ℕ)) (i : ℕ) : Option ℕ :=
  (List.range points.length).foldlM (innerStep points i) 1

/-- Body of the outer `for i` loop: `y = add(y, mul(li, y_i))`. -/
def outerStep (points : List (ℕ × ℕ)) (y i : ℕ) : Option ℕ :=
  match liT points i with
  | none => none
  | some li => some (addT y (mulT li (points.getD i (0, 0)).2))

/-- `GFC256::interpolate`: the nested Lagrange loops; `none` models the
panic raised by `div` on a zero denominator (duplicate x-coordinates). -/
def interpT (points : List (ℕ × ℕ)) : Option ℕ :=
  (List.range points.length).foldlM (outerStep points) 0

/-- `ShamirSS::split`.  The random source is modelled as one byte stream
per secret byte position (`streams i` feeds the polynomial of byte `i`),
with `h` the termination condition of `generate`'s resampling loop. -/
def split (n k : ℤ) (secret : List ℕ) (streams : ℕ → ℕ → ℕ)
    (h : ∀ i, ∃ j, streams i ((k - 1).toNat + j) % 256 ≠ 0) :
    Except String (List (ℤ × List ℕ)) :=
  if k ≤ 1 then Except.error "Threshold k must be greater than 1"
  else if n < k then Except.error "Total shares n must be greater than or equal to k"
  else if 255 < n then Except.error "Total shares n cannot exceed 255"
  else if secret = [] then Except.error "Secret cannot be empty"
  else Except.ok ((List.range n.toNat).map (fun m =>
    (((m + 1 : ℕ) : ℤ), (List.range secret.length).map (fun i =>
      evalT (generate (k - 1).toNat (secret.getD i 0) (streams i) (h i)) (m + 1)))))

/-- `ShamirSS::join`: a `BTreeMap<i32, Vec<u8>>` is embedded as its
key-ordered entry list.  The outer `none` models a panic escaping from
`interpolate`; `(idx % 256).toNat` is the `idx as u8` truncation. -/
def join (parts : List (ℤ × List ℕ)) : Option (Except String (List ℕ)) :=
  if parts = [] then some (Except.error "No parts provided")
  else if parts.any (fun pr => pr.2.length ≠ (parts.headD (0, [])).2.length) then
    some (Except.error "Varying lengths of part values")
  else
    match (List.range (parts.headD (0, [])).2.length).mapM
        (fun i => interpT (parts.map (fun pr => ((pr.1 % 256).toNat, pr.2.getD i 0)))) with
    | none => none
    | some s => some (Except.ok s)

/-! Bridge from coefficient lists to Mathlib polynomials over `GF256`. -/

noncomputable def listToPoly (p : List GF256) : Polynomial GF256 :=
  ∑ i ∈ Finset.range p.length, Polynomial.C (p.getD i 0) * Polynomial.X ^ i

theorem listToPoly_nil : listToPoly [] = 0 := by
  simp [listToPoly]

theorem listToPoly_cons (c : GF256) (t : List GF256) :
    listToPoly (c :: t) = Polynomial.C c + Polynomial.X * listToPoly t := by
  unfold listToPoly
  rw [show (c :: t).length = t.length + 1 from rfl, Finset.sum_range_succ']
  rw [Finset.mul_sum]
  rw [add_comm]
  congr 1
  · simp
  · apply Finset.sum_congr rfl
    intro i _
    rw [show (c :: t).getD (i + 1) 0 = t.getD i 0 from rfl, pow_succ]
    ring

theorem listToPoly_degree_lt (p : List GF256) :
    (listToPoly p).degree < (p.length : WithBot ℕ) := by
  rcases p with _ | ⟨c, t⟩
  · rw [listToPoly_nil, Polynomial.degree_zero]
    exact WithBot.bot_lt_coe _
  · apply lt_of_le_of_lt (Polynomial.degree_sum_le _ _)
    rw [Finset.sup_lt_iff (WithBot.bot_lt_coe _)]
    intro i hi
    apply lt_of_le_of_lt (Polynomial.degree_C_mul_X_pow_le _ _)
    exact_mod_cast Finset.mem_range.mp hi

theorem listToPoly_eval_zero (c : GF256) (t : List GF256) :
    (listToPoly (c :: t)).eval 0 = c := by
  rw [listToPoly_cons]
  simp

/-- Horner evaluation agrees with polynomial evaluation over `GF256`. -/
theorem evalT_eq_poly_eval (p : List ℕ) (hp : ∀ a ∈ p, a < 256) {x : ℕ} (hx : x < 256) :
    evalT p x = ((listToPoly (p.map toGF)).eval (toGF x)).val := by
  induction p with
  | nil =>
    rw [show ([] : List ℕ).map toGF = [] from rfl, listToPoly_nil]
    simp [evalT, gf_zero_val]
  | cons c t ih =>
    have hc : c < 256 := hp c (List.mem_cons_self _ _)
    have ht : ∀ a ∈ t, a < 256 := fun a ha => hp a (List.mem_cons_of_mem _ ha)
    rw [show (c :: t).map toGF = toGF c :: t.map toGF from rfl, listToPoly_cons]
    rw [Polynomial.eval_add, Polynomial.eval_C, Polynomial.eval_mul, Polynomial.eval_X]
    rw [gf_add_val, gf_mul_val, toGF_val hc, toGF_val hx, ← ih ht]
    show addT (mulT (evalT t x) x) c = c ^^^ mulT x (evalT t x)
    rw [addT, mulT_comm, Nat.xor_comm]

/-! The imperative interpolation loops compute the Lagrange value at 0. -/

/-- x-coordinate of point `i` (entry 0 of the two-byte vector). -/
def nodeOf (points : List (ℕ × ℕ)) (i : ℕ) : ℕ := (points.getD i (0, 0)).1

/-- y-coordinate of point `i` (entry 1 of the two-byte vector). -/
def byteOf (points : List (ℕ × ℕ)) (i : ℕ) : ℕ := (points.getD i (0, 0)).2

/-- The Lagrange weight `ℓ_i(0) = ∏_{j≠i} x_j / (x_i - x_j)` in `GF256`. -/
noncomputable def lagWeight (points : List (ℕ × ℕ)) (i : ℕ) : GF256 :=
  ∏ j ∈ (Finset.range points.length).erase i,
    (toGF (nodeOf points j) * (toGF (nodeOf points i) - toGF (nodeOf points j))⁻¹)

theorem innerFold (points : List (ℕ × ℕ))
    (hnode : ∀ i < points.length, nodeOf points i < 256)
    (hinj : ∀ i < points.length, ∀ j < points.length, i ≠ j →
      nodeOf points i ≠ nodeOf points j)
    {i : ℕ} (hi : i < points.length) :
    ∀ n, n ≤ points.length → ∀ acc : GF256,
      (List.range n).foldlM (innerStep points i) acc.val
        = some ((acc * ∏ j ∈ (Finset.range n).erase i,
            (toGF (nodeOf points j) * (toGF (nodeOf points i) - toGF (nodeOf points j))⁻¹)).val) := by
  intro n
  induction n with
  | zero =>
    intro _ acc
    simp [List.range_zero, Finset.range_zero, mul_one]
  | succ m ih =>
    intro hm acc
    have hmlen : m < points.length := hm
    rw [List.range_succ, List.foldlM_append, ih (Nat.le_of_succ_le hm) acc]
    simp only [List.foldlM_cons, List.foldlM_nil, Option.bind_eq_bind, Option.some_bind,
      bind_pure]
    by_cases him : i = m
    · subst him
      unfold innerStep
      rw [if_neg (by omega)]
      rw [Finset.range_succ, Finset.erase_insert Finset.not_mem_range_self,
        Finset.erase_eq_of_not_mem Finset.not_mem_range_self]
    · have hden : nodeOf points i ^^^ nodeOf points m ≠ 0 := by
        intro h0
        exact hinj i hi m hmlen him (Nat.xor_eq_zero.mp h0)
      have hdenlt : nodeOf points i ^^^ nodeOf points m < 256 :=
        xor_lt256 (hnode i hi) (hnode m hmlen)
      have hnum : nodeOf points m < 256 := hnode m hmlen
      have hstep : innerStep points i
            ((acc * ∏ j ∈ (Finset.range m).erase i,
              (toGF (nodeOf points j) * (toGF (nodeOf points i) - toGF (nodeOf points j))⁻¹)).val) m
          = some (mulT (acc * ∏ j ∈ (Finset.range m).erase i,
              (toGF (nodeOf points j) * (toGF (nodeOf points i) - toGF (nodeOf points j))⁻¹)).val
              (mulT (nodeOf points m) (invT (nodeOf points i ^^^ nodeOf points m)))) := by
        unfold innerStep
        rw [if_pos him]
        rw [show subT (points.getD i (0, 0)).1 (points.getD m (0, 0)).1
            = nodeOf points i ^^^ nodeOf points m from rfl]
        rw [show (points.getD m (0, 0)).1 = nodeOf points m from rfl]
        rw [divT_eq_mulT_invT hnum hdenlt (Nat.pos_of_ne_zero hden)]
      rw [hstep]
      congr 1
      have htval : (toGF (nodeOf points m)
            * (toGF (nodeOf points i) - toGF (nodeOf points m))⁻¹).val
          = mulT (nodeOf points m) (invT (nodeOf points i ^^^ nodeOf points m)) := by
        rw [gf_mul_val, gf_inv_val, gf_sub, gf_add_val,
          toGF_val (hnode i hi), toGF_val hnum]
      have hprod : (∏ j ∈ (Finset.range (m + 1)).erase i,
            (toGF (nodeOf points j) * (toGF (nodeOf points i) - toGF (nodeOf points j))⁻¹))
          = (toGF (nodeOf points m) * (toGF (nodeOf points i) - toGF (nodeOf points m))⁻¹)
            * ∏ j ∈ (Finset.range m).erase i,
              (toGF (nodeOf points j) * (toGF (nodeOf points i) - toGF (nodeOf points j))⁻¹) := by
        rw [Finset.range_succ, Finset.erase_insert_of_ne (Ne.symm him),
          Finset.prod_insert (fun hmem =>
            Finset.not_mem_range_self (Finset.mem_of_mem_erase hmem))]
      rw [hprod]
      have hre : acc * ((toGF (nodeOf points m)
            * (toGF (nodeOf points i) - toGF (nodeOf points m))⁻¹)
            * ∏ j ∈ (Finset.range m).erase i,
              (toGF (nodeOf points j) * (toGF (nodeOf points i) - toGF (nodeOf points j))⁻¹))
          = (acc * ∏ j ∈ (Finset.range m).erase i,
              (toGF (nodeOf points j) * (toGF (nodeOf points i) - toGF (nodeOf points j))⁻¹))
            * (toGF (nodeOf points m)
              * (toGF (nodeOf points i) - toGF (nodeOf points m))⁻¹) := by
        ring
      rw [hre, gf_mul_val _ (toGF (nodeOf points m)
        * (toGF (nodeOf points i) - toGF (nodeOf points m))⁻¹), htval]

theorem liT_eq (points : List (ℕ × ℕ))
    (hnode : ∀ i < points.length, nodeOf points i < 256)
    (hinj : ∀ i < points.length, ∀ j < points.length, i ≠ j →
      nodeOf points i ≠ nodeOf points j)
    {i : ℕ} (hi : i < points.length) :
    liT points i = some ((lagWeight points i).val) := by
  unfold liT
  rw [show (1 : ℕ) = (1 : GF256).val from rfl,
    innerFold points hnode hinj hi points.length le_rfl 1, one_mul]
  rfl

theorem outerFold (points : List (ℕ × ℕ))
    (hnode : ∀ i < points.length, nodeOf points i < 256)
    (hinj : ∀ i < points.length, ∀ j < points.length, i ≠ j →
      nodeOf points i ≠ nodeOf points j)
    (hbyte : ∀ i < points.length, byteOf points i < 256) :
    ∀ n, n ≤ points.length → ∀ acc : GF256,
      (List.range n).foldlM (outerStep points) acc.val
        = some ((acc + ∑ i ∈ Finset.range n,
            toGF (byteOf points i) * lagWeight points i).val) := by
  intro n
  induction n with
  | zero =>
    intro _ acc
    simp [List.range_zero, Finset.range_zero, add_zero]
  | succ m ih =>
    intro hm acc
    have hmlen : m < points.length := hm
    rw [List.range_succ, List.foldlM_append, ih (Nat.le_of_succ_le hm) acc]
    simp only [List.foldlM_cons, List.foldlM_nil, Option.bind_eq_bind, Option.some_bind,
      bind_pure]
    unfold outerStep
    rw [liT_eq points hnode hinj hmlen]
    show some (addT _ _) = _
    congr 1
    rw [show (points.getD m (0, 0)).2 = byteOf points m from rfl]
    rw [Finset.sum_range_succ, ← add_assoc]
    have h1 : ((acc + ∑ i ∈ Finset.range m, toGF (byteOf points i) * lagWeight points i)
          + toGF (byteOf points m) * lagWeight points m).val
        = (acc + ∑ i ∈ Finset.range m, toGF (byteOf points i) * lagWeight points i).val
          ^^^ (toGF (byteOf points m) * lagWeight points m).val := gf_add_val _ _
    have h2 : (toGF (byteOf points m) * lagWeight points m).val
        = mulT (byteOf points m) (lagWeight points m).val := by
      rw [gf_mul_val, toGF_val (hbyte m hmlen)]
    rw [h1, h2, addT, mulT_comm]

/-- The value computed by `GFC256::interpolate` on panic-free inputs:
the Lagrange combination `Σ y_i · ℓ_i(0)`. -/
theorem interpT_eq (points : List (ℕ × ℕ))
    (hnode : ∀ i < points.length, nodeOf points i < 256)
    (hinj : ∀ i < points.length, ∀ j < points.length, i ≠ j →
      nodeOf points i ≠ nodeOf points j)
    (hbyte : ∀ i < points.length, byteOf points i < 256) :
    interpT points = some ((∑ i ∈ Finset.range points.length,
      toGF (byteOf points i) * lagWeight points i).val) := by
  unfold interpT
  rw [show (0 : ℕ) = (0 : GF256).val from rfl,
    outerFold points hnode hinj hbyte points.length le_rfl 0, zero_add]

/-! The Lagrange combination equals Mathlib's interpolation evaluated at 0;
in characteristic 2 the `0 - x_j` numerators are the `x_j` themselves. -/

theorem basisDivisor_eval_zero (x y : GF256) :
    (Lagrange.basisDivisor x y).eval 0 = y * (x - y)⁻¹ := by
  unfold Lagrange.basisDivisor
  rw [Polynomial.eval_mul, Polynomial.eval_C, Polynomial.eval_sub, Polynomial.eval_X,
    Polynomial.eval_C, zero_sub, gf_neg, mul_comm]

theorem basis_eval_zero (s : Finset ℕ) (v : ℕ → GF256) (i : ℕ) :
    (Lagrange.basis s v i).eval 0 = ∏ j ∈ s.erase i, (v j * (v i - v j)⁻¹) := by
  rw [Lagrange.basis, Polynomial.eval_prod]
  exact Finset.prod_congr rfl fun j _ => basisDivisor_eval_zero _ _

theorem interpolate_eval_zero (s : Finset ℕ) (v r : ℕ → GF256) :
    (Lagrange.interpolate s v r).eval 0
      = ∑ i ∈ s, r i * ∏ j ∈ s.erase i, (v j * (v i - v j)⁻¹) := by
  rw [Lagrange.interpolate_apply, Polynomial.eval_finset_sum]
  exact Finset.sum_congr rfl fun i _ => by
    rw [Polynomial.eval_mul, Polynomial.eval_C, basis_eval_zero]

/-- Interpolation correctness: if the points lie on a polynomial with
fewer coefficients than there are points (all x-coordinates distinct
bytes), `GFC256::interpolate` returns the polynomial's value at 0. -/
theorem interpT_recovers (points : List (ℕ × ℕ)) (p : List GF256)
    (hnode : ∀ i < points.length, nodeOf points i < 256)
    (hinj : ∀ i < points.length, ∀ j < points.length, i ≠ j →
      nodeOf points i ≠ nodeOf points j)
    (hplen : p.length ≤ points.length)
    (hvals : ∀ i < points.length,
      byteOf points i = ((listToPoly p).eval (toGF (nodeOf points i))).val) :
    interpT points = some (((listToPoly p).eval 0).val) := by
  have hbyte : ∀ i < points.length, byteOf points i < 256 := fun i hi => by
    rw [hvals i hi]
    exact GF256.lt _
  rw [interpT_eq points hnode hinj hbyte]
  congr 1
  apply congrArg GF256.val
  have hInj : Set.InjOn (fun t => toGF (nodeOf points t))
      ↑(Finset.range points.length) := by
    intro a ha b hb hab
    simp only [Finset.coe_range, Set.mem_Iio] at ha hb
    by_contra hne
    exact hinj a ha b hb hne (toGF_inj (hnode a ha) (hnode b hb) hab)
  have hdeg : (listToPoly p).degree < ((Finset.range points.length).card : ℕ) := by
    rw [Finset.card_range]
    refine lt_of_lt_of_le (listToPoly_degree_lt p) ?_
    exact_mod_cast hplen
  have heq := Lagrange.eq_interpolate (f := listToPoly p) hInj hdeg
  calc ∑ i ∈ Finset.range points.length, toGF (byteOf points i) * lagWeight points i
      = ∑ i ∈ Finset.range points.length,
          ((listToPoly p).eval (toGF (nodeOf points i))) * lagWeight points i := by
        refine Finset.sum_congr rfl fun i hi => ?_
        rw [hvals i (Finset.mem_range.mp hi)]
        congr 1
        exact GF256.ext (toGF_val (GF256.lt _))
    _ = (Lagrange.interpolate (Finset.range points.length)
          (fun t => toGF (nodeOf points t))
          (fun t => (listToPoly p).eval (toGF (nodeOf points t)))).eval 0 := by
        rw [interpolate_eval_zero]
        rfl
    _ = (listToPoly p).eval 0 := by rw [← heq]

/-! Shape of `generate` and `split`. -/

theorem getD_lt_of_forall {l : List ℕ} (hl : ∀ a ∈ l, a < 256) (n : ℕ) :
    l.getD n 0 < 256 := by
  rw [List.getD_eq_getElem?_getD]
  cases hx : l[n]? with
  | none => norm_num
  | some x => exact hl x (List.getElem?_mem hx)

/-- Structure of `GFC256::generate` for positive degree: the secret byte,
then `degree - 1` sampled bytes, then a nonzero sampled leading byte. -/
theorem generate_struct (degree : ℕ) (hdeg : 1 ≤ degree) (c : ℕ) (hc : c < 256)
    (stream : ℕ → ℕ) (h : ∃ j, stream (degree + j) % 256 ≠ 0) :
    ∃ mid last, generate degree c stream h = c :: mid ++ [last]
      ∧ mid.length = degree - 1 ∧ (∀ a ∈ mid, a < 256)
      ∧ last < 256 ∧ last ≠ 0 := by
  obtain ⟨d, rfl⟩ : ∃ d, degree = d + 1 := ⟨degree - 1, by omega⟩
  refine ⟨((List.range (d + 1)).map (fun i => stream i % 256)).take d,
    if (c :: (List.range (d + 1)).map (fun i => stream i % 256)).getD (d + 1) 0 = 0
      then stream (d + 1 + Nat.find h) % 256
      else (c :: (List.range (d + 1)).map (fun i => stream i % 256)).getD (d + 1) 0,
    ?_, ?_, ?_, ?_, ?_⟩
  · rfl
  · rw [List.length_take, List.length_map, List.length_range]
    omega
  · intro a ha
    have := List.mem_of_mem_take ha
    obtain ⟨i, _, rfl⟩ := List.mem_map.mp this
    exact Nat.mod_lt _ (by norm_num)
  · split
    · exact Nat.mod_lt _ (by norm_num)
    · apply getD_lt_of_forall
      intro a ha
      rcases List.mem_cons.mp ha with rfl | ha
      · exact hc
      · obtain ⟨i, _, rfl⟩ := List.mem_map.mp ha
        exact Nat.mod_lt _ (by norm_num)
  · split
    · exact Nat.find_spec h
    · assumption

theorem generate_length (degree : ℕ) (hdeg : 1 ≤ degree) (c : ℕ) (hc : c < 256)
    (stream : ℕ → ℕ) (h : ∃ j, stream (degree + j) % 256 ≠ 0) :
    (generate degree c stream h).length = degree + 1 := by
  obtain ⟨mid, last, heq, hmid, -, -, -⟩ := generate_struct degree hdeg c hc stream h
  rw [heq]
  simp only [List.length_cons, List.length_append, List.length_singleton,
    List.length_nil, hmid]
  omega

theorem generate_bytes (degree : ℕ) (hdeg : 1 ≤ degree) (c : ℕ) (hc : c < 256)
    (stream : ℕ → ℕ) (h : ∃ j, stream (degree + j) % 256 ≠ 0) :
    ∀ a ∈ generate degree c stream h, a < 256 := by
  obtain ⟨mid, last, heq, -, hmid, hlast, -⟩ := generate_struct degree hdeg c hc stream h
  rw [heq]
  intro a ha
  rcases List.mem_cons.mp ha with rfl | ha
  · exact hc
  · rcases List.mem_append.mp ha with ha | ha
    · exact hmid a ha
    · rw [List.mem_singleton.mp ha]
      exact hlast

/-- The polynomial `split` generates for secret byte `i`. -/
def polyFor (k : ℤ) (secret : List ℕ) (streams : ℕ → ℕ → ℕ)
    (h : ∀ i, ∃ j, streams i ((k - 1).toNat + j) % 256 ≠ 0) (i : ℕ) : List ℕ :=
  generate (k - 1).toNat (secret.getD i 0) (streams i) (h i)

/-- The byte vector of the share with index `x`. -/
def shareVec (k : ℤ) (secret : List ℕ) (streams : ℕ → ℕ → ℕ)
    (h : ∀ i, ∃ j, streams i ((k - 1).toNat + j) % 256 ≠ 0) (x : ℕ) : List ℕ :=
  (List.range secret.length).map (fun i => evalT (polyFor k secret streams h i) x)

/-- Successful `split` returns the explicit share table: key `x = m+1`,
value the Horner evaluations of the per-byte generated polynomials. -/
theorem split_ok (n k : ℤ) (secret : List ℕ) (streams : ℕ → ℕ → ℕ)
    (h : ∀ i, ∃ j, streams i ((k - 1).toNat + j) % 256 ≠ 0)
    (hk : 1 < k) (hkn : k ≤ n) (hn : n ≤ 255) (hs : secret ≠ []) :
    split n k secret streams h = Except.ok ((List.range n.toNat).map (fun m =>
      (((m + 1 : ℕ) : ℤ), shareVec k secret streams h (m + 1)))) := by
  unfold split
  rw [if_neg (by omega), if_neg (by omega), if_neg (by omega), if_neg hs]
  rfl

/-! List plumbing for `join`. -/

theorem mapM_range_some {α : Type} (f : ℕ → Option α) (g : ℕ → α) :
    ∀ n : ℕ, (∀ i < n, f i = some (g i)) →
      (List.range n).mapM f = some ((List.range n).map g) := by
  intro n
  induction n with
  | zero => intro _; rfl
  | succ m ih =>
    intro hf
    rw [List.range_succ, List.mapM_append, ih (fun i hi => hf i (by omega))]
    simp only [List.mapM_cons, List.mapM_nil, hf m (by omega), List.map_append,
      List.map_cons, List.map_nil, Option.bind_eq_bind, Option.some_bind, pure,
      bind_pure_comp, Option.map_some]

theorem map_getD_range (l : List ℕ) :
    (List.range l.length).map (fun i => l.getD i 0) = l := by
  apply List.ext_getElem
  · rw [List.length_map, List.length_range]
  · intro i h1 h2
    rw [List.getElem_map, List.getElem_range, List.getD_eq_getElem _ _ h2]

theorem nodeOf_map (sub : List (ℤ × List ℕ)) (i t : ℕ) (ht : t < sub.length) :
    nodeOf (sub.map (fun pr => ((pr.1 % 256).toNat, pr.2.getD i 0))) t
      = (sub[t].1 % 256).toNat := by
  unfold nodeOf
  have hlt : t < (sub.map (fun pr => ((pr.1 % 256).toNat, pr.2.getD i 0))).length := by
    rw [List.length_map]
    exact ht
  rw [List.getD_eq_getElem _ _ hlt, List.getElem_map]

theorem byteOf_map (sub : List (ℤ × List ℕ)) (i t : ℕ) (ht : t < sub.length) :
    byteOf (sub.map (fun pr => ((pr.1 % 256).toNat, pr.2.getD i 0))) t
      = sub[t].2.getD i 0 := by
  unfold byteOf
  have hlt : t < (sub.map (fun pr => ((pr.1 % 256).toNat, pr.2.getD i 0))).length := by
    rw [List.length_map]
    exact ht
  rw [List.getD_eq_getElem _ _ hlt, List.getElem_map]

/-- Per byte position, interpolating any `k` distinct shares of a split
recovers the secret byte: the share points lie on the generated
degree-`k-1` polynomial, whose constant term is the secret byte. -/
theorem interp_share_points (k : ℤ) (secret : List ℕ) (streams : ℕ → ℕ → ℕ)
    (h : ∀ i, ∃ j, streams i ((k - 1).toNat + j) % 256 ≠ 0) (hk : 1 < k)
    (hbytes : ∀ b ∈ secret, b < 256)
    (sub : List (ℤ × List ℕ)) (hlen : sub.length = k.toNat)
    (hmem : ∀ pr ∈ sub, ∃ x : ℕ, 1 ≤ x ∧ x ≤ 255 ∧
      pr = ((x : ℤ), shareVec k secret streams h x))
    (hpw : sub.Pairwise (fun a b => a.1 ≠ b.1))
    (i : ℕ) (hi : i < secret.length) :
    interpT (sub.map (fun pr => ((pr.1 % 256).toNat, pr.2.getD i 0)))
      = some (secret.getD i 0) := by
  have hptlen : (sub.map (fun pr => ((pr.1 % 256).toNat, pr.2.getD i 0))).length
      = sub.length := List.length_map _ _
  have hc : secret.getD i 0 < 256 := getD_lt_of_forall hbytes i
  have hdk : 1 ≤ (k - 1).toNat := by omega
  have hklen : (polyFor k secret streams h i).length = k.toNat := by
    rw [polyFor, generate_length _ hdk _ hc]
    omega
  have hxval : ∀ t (ht : t < sub.length), ∃ x : ℕ, 1 ≤ x ∧ x ≤ 255 ∧
      sub[t].1 = (x : ℤ) ∧ sub[t].2 = shareVec k secret streams h x := by
    intro t ht
    obtain ⟨x, h1, h2, heq⟩ := hmem sub[t] (List.getElem_mem ht)
    exact ⟨x, h1, h2, by rw [heq], by rw [heq]⟩
  have hkeyne : ∀ t u (ht : t < sub.length) (hu : u < sub.length), t ≠ u →
      sub[t].1 ≠ sub[u].1 := by
    intro t u ht hu htu
    rcases Nat.lt_or_ge t u with hlt | hge
    · exact List.pairwise_iff_getElem.mp hpw t u ht hu hlt
    · exact (List.pairwise_iff_getElem.mp hpw u t hu ht (by omega)).symm
  have hrec := interpT_recovers (sub.map (fun pr => ((pr.1 % 256).toNat, pr.2.getD i 0)))
    ((polyFor k secret streams h i).map toGF) ?hnode ?hinj ?hplen ?hvals
  case hnode =>
    intro t ht
    rw [hptlen] at ht
    rw [nodeOf_map sub i t ht]
    have h1 : (0 : ℤ) ≤ sub[t].1 % 256 := Int.emod_nonneg _ (by norm_num)
    have h2 : sub[t].1 % 256 < 256 := Int.emod_lt_of_pos _ (by norm_num)
    omega
  case hinj =>
    intro t ht u hu htu
    rw [hptlen] at ht hu
    rw [nodeOf_map sub i t ht, nodeOf_map sub i u hu]
    obtain ⟨x, -, hx2, hkey, -⟩ := hxval t ht
    obtain ⟨x', -, hx2', hkey', -⟩ := hxval u hu
    rw [hkey, hkey']
    have hne : (x : ℤ) ≠ (x' : ℤ) := by
      rw [← hkey, ← hkey']
      exact hkeyne t u ht hu htu
    have : x ≠ x' := fun hxx => hne (by rw [hxx])
    omega
  case hplen =>
    rw [List.length_map, hklen, hptlen, hlen]
  case hvals =>
    intro t ht
    rw [hptlen] at ht
    rw [byteOf_map sub i t ht, nodeOf_map sub i t ht]
    obtain ⟨x, hx1, hx2, hkey, hvec⟩ := hxval t ht
    rw [hkey, hvec, shareVec]
    have hlt2 : i < ((List.range secret.length).map
        (fun i2 => evalT (polyFor k secret streams h i2) x)).length := by
      rw [List.length_map, List.length_range]
      exact hi
    rw [List.getD_eq_getElem _ _ hlt2, List.getElem_map, List.getElem_range]
    rw [show (((x : ℤ)) % 256).toNat = x from by omega]
    exact evalT_eq_poly_eval _ (generate_bytes _ hdk _ hc _ _) (by omega)
  rw [hrec]
  obtain ⟨mid, last, hgen, -, -, -, -⟩ :=
    generate_struct ((k - 1).toNat) hdk (secret.getD i 0) hc (streams i) (h i)
  rw [show polyFor k secret streams h i
    = generate (k - 1).toNat (secret.getD i 0) (streams i) (h i) from rfl, hgen]
  rw [show (secret.getD i 0 :: mid ++ [last]).map toGF
    = toGF (secret.getD i 0) :: (mid ++ [last]).map toGF from rfl]
  rw [listToPoly_eval_zero, toGF_val hc]

/-- Round trip: joining any `k`-element subset of the shares of a
successful split returns the original secret. -/
theorem join_sub_split (n k : ℤ) (secret : List ℕ) (streams : ℕ → ℕ → ℕ)
    (h : ∀ i, ∃ j, streams i ((k - 1).toNat + j) % 256 ≠ 0)
    (hk : 1 < k) (hkn : k ≤ n) (hn : n ≤ 255) (hs : secret ≠ [])
    (hbytes : ∀ b ∈ secret, b < 256)
    (parts : List (ℤ × List ℕ)) (hsplit : split n k secret streams h = Except.ok parts)
    (sub : List (ℤ × List ℕ)) (hsub : sub.Sublist parts) (hlen : sub.length = k.toNat) :
    join sub = some (Except.ok secret) := by
  rw [split_ok n k secret streams h hk hkn hn hs] at hsplit
  have hparts : parts = (List.range n.toNat).map (fun m =>
      (((m + 1 : ℕ) : ℤ), shareVec k secret streams h (m + 1))) := by
    injection hsplit with hX
    exact hX.symm
  subst hparts
  have hmem : ∀ pr ∈ sub, ∃ x : ℕ, 1 ≤ x ∧ x ≤ 255 ∧
      pr = ((x : ℤ), shareVec k secret streams h x) := by
    intro pr hpr
    obtain ⟨m, hm, rfl⟩ := List.mem_map.mp (hsub.subset hpr)
    have hm2 : m < n.toNat := List.mem_range.mp hm
    exact ⟨m + 1, by omega, by omega, rfl⟩
  have hpw : sub.Pairwise (fun a b => a.1 ≠ b.1) := by
    refine List.Pairwise.sublist hsub ?_
    rw [List.pairwise_map]
    refine List.Pairwise.imp ?_ (List.pairwise_lt_range n.toNat)
    intro a b hab heq
    omega
  have hsubne : sub ≠ [] := by
    intro h0
    rw [h0] at hlen
    simp only [List.length_nil] at hlen
    omega
  obtain ⟨pr0, rest, rfl⟩ := List.exists_cons_of_ne_nil hsubne
  have hveclen : ∀ pr ∈ pr0 :: rest, pr.2.length = secret.length := by
    intro pr hpr
    obtain ⟨x, -, -, rfl⟩ := hmem pr hpr
    simp [shareVec, List.length_map, List.length_range]
  unfold join
  rw [if_neg (by simp : ¬(pr0 :: rest = []))]
  have hany : ((pr0 :: rest).any fun pr =>
      pr.2.length ≠ ((pr0 :: rest).headD (0, [])).2.length) = false := by
    rw [List.any_eq_false]
    intro pr hpr
    simp only [ne_eq, decide_not, Bool.not_eq_true', decide_eq_false_iff_not,
      Decidable.not_not]
    rw [hveclen pr hpr]
    exact (hveclen pr0 (List.mem_cons_self _ _)).symm
  rw [if_neg (by rw [hany]; exact Bool.false_ne_true)]
  have hhead : ((pr0 :: rest).headD (0, [])).2.length = secret.length :=
    hveclen pr0 (List.mem_cons_self _ _)
  rw [hhead]
  rw [mapM_range_some _ (fun i => secret.getD i 0) secret.length (fun i hi =>
    interp_share_points k secret streams h hk hbytes (pr0 :: rest) hlen hmem hpw i hi)]
  rw [map_getD_range secret]

/-! Panic-freedom of `join` whenever the truncated share indices are
pairwise distinct (the zero denominator `sub(x_i, x_j)` needs `x_i = x_j`
as bytes). -/

theorem pts_hnode (parts : List (ℤ × List ℕ)) (i : ℕ) :
    ∀ t < (parts.map (fun pr => ((pr.1 % 256).toNat, pr.2.getD i 0))).length,
      nodeOf (parts.map (fun pr => ((pr.1 % 256).toNat, pr.2.getD i 0))) t < 256 := by
  intro t ht
  rw [List.length_map] at ht
  rw [nodeOf_map parts i t ht]
  have h1 : (0 : ℤ) ≤ parts[t].1 % 256 := Int.emod_nonneg _ (by norm_num)
  have h2 : parts[t].1 % 256 < 256 := Int.emod_lt_of_pos _ (by norm_num)
  omega

theorem pts_hinj (parts : List (ℤ × List ℕ)) (i : ℕ)
    (hdist : parts.Pairwise (fun a b => a.1 % 256 ≠ b.1 % 256)) :
    ∀ t < (parts.map (fun pr => ((pr.1 % 256).toNat, pr.2.getD i 0))).length,
    ∀ u < (parts.map (fun pr => ((pr.1 % 256).toNat, pr.2.getD i 0))).length,
      t ≠ u → nodeOf (parts.map (fun pr => ((pr.1 % 256).toNat, pr.2.getD i 0))) t
        ≠ nodeOf (parts.map (fun pr => ((pr.1 % 256).toNat, pr.2.getD i 0))) u := by
  intro t ht u hu htu
  rw [List.length_map] at ht hu
  rw [nodeOf_map parts i t ht, nodeOf_map parts i u hu]
  have hne : parts[t].1 % 256 ≠ parts[u].1 % 256 := by
    rcases Nat.lt_or_ge t u with hlt | hge
    · exact List.pairwise_iff_getElem.mp hdist t u ht hu hlt
    · exact (List.pairwise_iff_getElem.mp hdist u t hu ht (by omega)).symm
  have h1 : (0 : ℤ) ≤ parts[t].1 % 256 := Int.emod_nonneg _ (by norm_num)
  have h2 : (0 : ℤ) ≤ parts[u].1 % 256 := Int.emod_nonneg _ (by norm_num)
  omega

theorem outerFold_isSome (points : List (ℕ × ℕ))
    (hnode : ∀ i < points.length, nodeOf points i < 256)
    (hinj : ∀ i < points.length, ∀ j < points.length, i ≠ j →
      nodeOf points i ≠ nodeOf points j) :
    ∀ n, n ≤ points.length → ∀ y : ℕ,
      ((List.range n).foldlM (outerStep points) y).isSome := by
  intro n
  induction n with
  | zero =>
    intro _ y
    rfl
  | succ m ih =>
    intro hm y
    rw [List.range_succ, List.foldlM_append]
    obtain ⟨y2, hy2⟩ := Option.isSome_iff_exists.mp (ih (Nat.le_of_succ_le hm) y)
    rw [hy2]
    simp only [List.foldlM_cons, List.foldlM_nil, Option.bind_eq_bind, Option.some_bind,
      bind_pure]
    unfold outerStep
    rw [liT_eq points hnode hinj (show m < points.length from hm)]
    rfl

theorem interpT_isSome (points : List (ℕ × ℕ))
    (hnode : ∀ i < points.length, nodeOf points i < 256)
    (hinj : ∀ i < points.length, ∀ j < points.length, i ≠ j →
      nodeOf points i ≠ nodeOf points j) :
    (interpT points).isSome :=
  outerFold_isSome points hnode hinj points.length le_rfl 0

theorem mapM_range_ex {α : Type} (f : ℕ → Option α) :
    ∀ n : ℕ, (∀ i < n, (f i).isSome) →
      ∃ l, (List.range n).mapM f = some l ∧ l.length = n := by
  intro n
  induction n with
  | zero => intro _; exact ⟨[], rfl, rfl⟩
  | succ m ih =>
    intro hf
    obtain ⟨l, hl, hlen⟩ := ih (fun i hi => hf i (by omega))
    obtain ⟨b, hb⟩ := Option.isSome_iff_exists.mp (hf m (by omega))
    refine ⟨l ++ [b], ?_, by simp [hlen]⟩
    rw [List.range_succ, List.mapM_append, hl]
    simp only [List.mapM_cons, List.mapM_nil, hb, Option.bind_eq_bind, Option.some_bind,
      bind_pure_comp, Option.map_some]
    rfl

/-- `join` succeeds (no error, no panic) on any non-empty consistent parts
list whose indices are pairwise distinct modulo 256, and the reconstructed
byte sequence has the common share length. -/
theorem join_ok_of_consistent (parts : List (ℤ × List ℕ)) (hne : parts ≠ [])
    (hcons : ∀ pr ∈ parts, pr.2.length = (parts.headD (0, [])).2.length)
    (hdist : parts.Pairwise (fun a b => a.1 % 256 ≠ b.1 % 256)) :
    ∃ s, join parts = some (Except.ok s)
      ∧ s.length = (parts.headD (0, [])).2.length := by
  obtain ⟨pr0, rest, rfl⟩ := List.exists_cons_of_ne_nil hne
  unfold join
  rw [if_neg (by simp : ¬(pr0 :: rest = []))]
  have hany : ((pr0 :: rest).any fun pr =>
      pr.2.length ≠ ((pr0 :: rest).headD (0, [])).2.length) = false := by
    rw [List.any_eq_false]
    intro pr hpr
    simp only [ne_eq, decide_not, Bool.not_eq_true', decide_eq_false_iff_not,
      Decidable.not_not]
    exact hcons pr hpr
  rw [if_neg (by rw [hany]; exact Bool.false_ne_true)]
  have hsome : ∀ i < ((pr0 :: rest).headD (0, [])).2.length,
      (interpT ((pr0 :: rest).map (fun pr => ((pr.1 % 256).toNat, pr.2.getD i 0)))).isSome :=
    fun i _ => interpT_isSome _ (pts_hnode (pr0 :: rest) i) (pts_hinj (pr0 :: rest) i hdist)
  obtain ⟨l, hl, hlen⟩ := mapM_range_ex _ ((pr0 :: rest).headD (0, [])).2.length hsome
  refine ⟨l, ?_, hlen⟩
  rw [hl]

/-! Error behaviour of `join`. -/

theorem join_nil_eq : join [] = some (Except.error "No parts provided") := rfl

theorem join_vary (parts : List (ℤ × List ℕ)) (hne : parts ≠ [])
    (hvary : ¬ ∀ pr ∈ parts, pr.2.length = (parts.headD (0, [])).2.length) :
    join parts = some (Except.error "Varying lengths of part values") := by
  unfold join
  rw [if_neg hne, if_pos]
  rw [List.any_eq_true]
  push_neg at hvary
  obtain ⟨pr, hpr, hlen⟩ := hvary
  exact ⟨pr, hpr, by simpa using hlen⟩

theorem join_consistent_not_error (parts : List (ℤ × List ℕ)) (hne : parts ≠ [])
    (hcons : ∀ pr ∈ parts, pr.2.length = (parts.headD (0, [])).2.length) :
    ∀ e : String, join parts ≠ some (Except.error e) := by
  intro e
  unfold join
  rw [if_neg hne]
  have hany : (parts.any fun pr =>
      pr.2.length ≠ (parts.headD (0, [])).2.length) = false := by
    rw [List.any_eq_false]
    intro pr hpr
    simp only [ne_eq, decide_not, Bool.not_eq_true', decide_eq_false_iff_not,
      Decidable.not_not]
    exact hcons pr hpr
  rw [if_neg (by rw [hany]; exact Bool.false_ne_true)]
  cases hmm : (List.range (parts.headD (0, [])).2.length).mapM
      (fun i => interpT (parts.map (fun pr => ((pr.1 % 256).toNat, pr.2.getD i 0)))) with
  | none => simp
  | some s => simp

/-- `join` ignores everything but the low 8 bits of each share index:
reducing every key mod 256 gives the same result. -/
theorem join_mod (parts : List (ℤ × List ℕ)) :
    join (parts.map (fun pr => (pr.1 % 256, pr.2))) = join parts := by
  have hB : ((parts.map (fun pr => (pr.1 % 256, pr.2))).headD (0, [])).2
      = (parts.headD (0, [])).2 := by
    cases parts with
    | nil => rfl
    | cons pr0 rest => rfl
  unfold join
  refine if_congr ?_ rfl (if_congr ?_ rfl ?_)
  · constructor
    · intro hmm
      exact List.map_eq_nil_iff.mp hmm
    · intro hmm
      rw [hmm]
      rfl
  · rw [show (((parts.map (fun pr => (pr.1 % 256, pr.2))).headD (0, [])).2
      = (parts.headD (0, [])).2) from hB, List.any_map]
    rfl
  · rw [show (((parts.map (fun pr => (pr.1 % 256, pr.2))).headD (0, [])).2
      = (parts.headD (0, [])).2) from hB]
    have hmaps : ∀ i : ℕ, (parts.map (fun pr => (pr.1 % 256, pr.2))).map
        (fun pr => ((pr.1 % 256).toNat, pr.2.getD i 0))
        = parts.map (fun pr => ((pr.1 % 256).toNat, pr.2.getD i 0)) := by
      intro i
      rw [List.map_map]
      apply List.map_congr_left
      intro pr _
      show ((pr.1 % 256 % 256).toNat, pr.2.getD i 0) = ((pr.1 % 256).toNat, pr.2.getD i 0)
      rw [Int.emod_emod_of_dvd _ dvd_rfl]
    have hmapM : (List.range (parts.headD (0, [])).2.length).mapM
        (fun i => interpT ((parts.map (fun pr => (pr.1 % 256, pr.2))).map
          (fun pr => ((pr.1 % 256).toNat, pr.2.getD i 0))))
        = (List.range (parts.headD (0, [])).2.length).mapM
          (fun i => interpT (parts.map (fun pr => ((pr.1 % 256).toNat, pr.2.getD i 0)))) := by
      have hfun : (fun i => interpT ((parts.map (fun pr => (pr.1 % 256, pr.2))).map
            (fun pr => ((pr.1 % 256).toNat, pr.2.getD i 0))))
          = fun i => interpT (parts.map (fun pr => ((pr.1 % 256).toNat, pr.2.getD i 0))) :=
        funext fun i => by rw [hmaps i]
      rw [hfun]
    rw [hmapM]

/-! Coefficient access of `generate` (for the polynomial-shape claim). -/

theorem generate_getD_zero (degree : ℕ) (hdeg : 1 ≤ degree) (c : ℕ) (hc : c < 256)
    (stream : ℕ → ℕ) (h : ∃ j, stream (degree + j) % 256 ≠ 0) :
    (generate degree c stream h).getD 0 0 = c := by
  obtain ⟨mid, last, hgen, -, -, -, -⟩ := generate_struct degree hdeg c hc stream h
  rw [hgen]
  rfl

theorem generate_getD_last (degree : ℕ) (hdeg : 1 ≤ degree) (c : ℕ) (hc : c < 256)
    (stream : ℕ → ℕ) (h : ∃ j, stream (degree + j) % 256 ≠ 0) :
    (generate degree c stream h).getD degree 0 ≠ 0 := by
  obtain ⟨mid, last, hgen, hmidlen, -, -, hlast⟩ := generate_struct degree hdeg c hc stream h
  obtain ⟨d, rfl⟩ : ∃ d, degree = d + 1 := ⟨degree - 1, by omega⟩
  rw [hgen, show ((c :: mid ++ [last]).getD (d + 1) 0 = (mid ++ [last]).getD d 0) from rfl]
  rw [List.getD_append_right mid [last] 0 d (by omega),
    show d - mid.length = 0 from by omega]
  exact hlast

/-! Horner evaluation equals the monomial XOR-sum (for the eval claim). -/

/-- Field power `x^n` (iterated `mul`). -/
def powT (x : ℕ) : ℕ → ℕ
  | 0 => 1
  | n + 1 => mulT (powT x n) x

/-- The monomial sum `⨁_i mul(p[i], x^i)` with field add = XOR. -/
def sumPolyT (p : List ℕ) (x : ℕ) : ℕ :=
  ((List.range p.length).map (fun i => mulT (p.getD i 0) (powT x i))).foldr (· ^^^ ·) 0

theorem powT_lt (x n : ℕ) : powT x n < 256 := by
  cases n with
  | zero => norm_num [powT]
  | succ m => exact mulT_lt _ _

theorem foldr_xor_lt {l : List ℕ} (hl : ∀ a ∈ l, a < 256) :
    l.foldr (· ^^^ ·) 0 < 256 := by
  induction l with
  | nil => norm_num
  | cons a t ih =>
    exact xor_lt256 (hl a (List.mem_cons_self _ _))
      (ih (fun b hb => hl b (List.mem_cons_of_mem _ hb)))

theorem foldr_map_mulT {l : List ℕ} {x : ℕ} (hl : ∀ a ∈ l, a < 256) (hx : x < 256) :
    (l.map (fun a => mulT a x)).foldr (· ^^^ ·) 0 = mulT (l.foldr (· ^^^ ·) 0) x := by
  induction l with
  | nil => exact (zero_mulT x).symm
  | cons a t ih =>
    rw [List.map_cons, List.foldr_cons, List.foldr_cons,
      ih (fun b hb => hl b (List.mem_cons_of_mem _ hb)),
      xor_mulT (hl a (List.mem_cons_self _ _))
        (foldr_xor_lt (fun b hb => hl b (List.mem_cons_of_mem _ hb))) hx]

theorem sumPolyT_cons {c : ℕ} {t : List ℕ} {x : ℕ} (hc : c < 256)
    (ht : ∀ a ∈ t, a < 256) (hx : x < 256) :
    sumPolyT (c :: t) x = c ^^^ mulT (sumPolyT t x) x := by
  unfold sumPolyT
  rw [show (c :: t).length = t.length + 1 from rfl, List.range_succ_eq_map,
    List.map_cons, List.foldr_cons, List.map_map]
  have h0 : mulT ((c :: t).getD 0 0) (powT x 0) = c := by
    rw [show (c :: t).getD 0 0 = c from rfl, show powT x 0 = 1 from rfl, mulT_one hc]
  rw [h0]
  congr 1
  have hcomp : ((fun i => mulT ((c :: t).getD i 0) (powT x i)) ∘ Nat.succ)
      = fun i => mulT (mulT (t.getD i 0) (powT x i)) x := by
    funext i
    show mulT ((c :: t).getD (i + 1) 0) (powT x (i + 1)) = _
    rw [show (c :: t).getD (i + 1) 0 = t.getD i 0 from rfl,
      show powT x (i + 1) = mulT (powT x i) x from rfl]
    rw [← mulT_assoc (getD_lt_of_forall ht i) (powT_lt x i) hx]
  rw [hcomp]
  rw [show (fun i => mulT (mulT (t.getD i 0) (powT x i)) x)
      = (fun a => mulT a x) ∘ (fun i => mulT (t.getD i 0) (powT x i)) from rfl]
  rw [← List.map_map]
  rw [foldr_map_mulT ?hb hx]
  case hb =>
    intro a ha
    obtain ⟨i, -, rfl⟩ := List.mem_map.mp ha
    exact mulT_lt _ _

theorem evalT_eq_sumPolyT (p : List ℕ) (hp : ∀ a ∈ p, a < 256) {x : ℕ} (hx : x < 256) :
    evalT p x = sumPolyT p x := by
  induction p with
  | nil => rfl
  | cons c t ih =>
    have hc : c < 256 := hp c (List.mem_cons_self _ _)
    have ht : ∀ a ∈ t, a < 256 := fun a ha => hp a (List.mem_cons_of_mem _ ha)
    rw [sumPolyT_cons hc ht hx]
    show addT (mulT (evalT t x) x) c = c ^^^ mulT (sumPolyT t x) x
    rw [ih ht, addT, Nat.xor_comm]

theorem evalT_at_zero (p : List ℕ) (hp : p ≠ []) : evalT p 0 = p.getD 0 0 := by
  cases p with
  | nil => exact absurd rfl hp
  | cons c t =>
    show addT (mulT (evalT t 0) 0) c = c
    rw [mulT_zero, addT, Nat.zero_xor]

/-! Claim theorems. -/

/-- C1: Round trip — for every non-empty byte secret and valid `(n, k)`
with `1 < k ≤ n ≤ 255`, if `split` succeeds then `join` of every subset of
exactly `k` of the returned shares (for every choice of random coefficient
streams, the leading coefficient being resampled until nonzero) returns the
original secret. -/
theorem claim_roundtrip (n k : ℤ) (secret : List ℕ) (streams : ℕ → ℕ → ℕ)
    (h : ∀ i, ∃ j, streams i ((k - 1).toNat + j) % 256 ≠ 0)
    (hk : 1 < k) (hkn : k ≤ n) (hn : n ≤ 255) (hs : secret ≠ [])
    (hbytes : ∀ b ∈ secret, b < 256)
    (parts : List (ℤ × List ℕ)) (hsplit : split n k secret streams h = Except.ok parts)
    (sub : List (ℤ × List ℕ)) (hsub : sub.Sublist parts) (hlen : sub.length = k.toNat) :
    join sub = some (Except.ok secret) :=
  join_sub_split n k secret streams h hk hkn hn hs hbytes parts hsplit sub hsub hlen

theorem streamsNZ (k : ℤ) : ∀ i : ℕ, ∃ j, (fun _ _ : ℕ => 1) i ((k - 1).toNat + j) % 256 ≠ 0 :=
  fun _ => ⟨0, by simp⟩

/-- C1 witness: splitting the secret `[7]` with `n = 3`, `k = 2` under the
constant-1 stream yields shares `[(1,[6]),(2,[5]),(3,[4])]`, and joining the
first two recovers `[7]`. -/
theorem claim_roundtrip_witness :
    join [((1 : ℤ), [6]), ((2 : ℤ), [5])] = some (Except.ok [7]) :=
  claim_roundtrip 3 2 [7] (fun _ _ => 1) (streamsNZ 2) (by decide) (by decide)
    (by decide) (by decide) (by decide)
    [((1 : ℤ), [6]), ((2 : ℤ), [5]), ((3 : ℤ), [4])] rfl
    [((1 : ℤ), [6]), ((2 : ℤ), [5])] (by decide) (by decide)

/-- C2: Subset invariance — any two subsets of exactly `k` shares from one
successful split reconstruct the same byte sequence (both yield the
secret). -/
theorem claim_subset_invariance (n k : ℤ) (secret : List ℕ) (streams : ℕ → ℕ → ℕ)
    (h : ∀ i, ∃ j, streams i ((k - 1).toNat + j) % 256 ≠ 0)
    (hk : 1 < k) (hkn : k ≤ n) (hn : n ≤ 255) (hs : secret ≠ [])
    (hbytes : ∀ b ∈ secret, b < 256)
    (parts : List (ℤ × List ℕ)) (hsplit : split n k secret streams h = Except.ok parts)
    (sub1 sub2 : List (ℤ × List ℕ))
    (hsub1 : sub1.Sublist parts) (hlen1 : sub1.length = k.toNat)
    (hsub2 : sub2.Sublist parts) (hlen2 : sub2.length = k.toNat) :
    join sub1 = join sub2 := by
  rw [join_sub_split n k secret streams h hk hkn hn hs hbytes parts hsplit sub1 hsub1 hlen1,
    join_sub_split n k secret streams h hk hkn hn hs hbytes parts hsplit sub2 hsub2 hlen2]

/-- C2 witness: two different 2-subsets of the shares of `split 3 2 [7]`
join to the same sequence. -/
theorem claim_subset_invariance_witness :
    join [((1 : ℤ), [6]), ((2 : ℤ), [5])] = join [((2 : ℤ), [5]), ((3 : ℤ), [4])] :=
  claim_subset_invariance 3 2 [7] (fun _ _ => 1) (streamsNZ 2) (by decide) (by decide)
    (by decide) (by decide) (by decide)
    [((1 : ℤ), [6]), ((2 : ℤ), [5]), ((3 : ℤ), [4])] rfl
    [((1 : ℤ), [6]), ((2 : ℤ), [5])] [((2 : ℤ), [5]), ((3 : ℤ), [4])]
    (by decide) (by decide) (by decide) (by decide)

/-- C3: Split precondition order — the four checks fire in source order
(`k ≤ 1`, then `n < k`, then `n > 255`, then empty secret), the first
violated one wins, and the returned error is the same for every random
stream (no polynomial generation or field computation precedes the
checks). -/
theorem claim_split_precondition_order :
    ∀ (n k : ℤ) (secret : List ℕ) (streams : ℕ → ℕ → ℕ)
      (h : ∀ i, ∃ j, streams i ((k - 1).toNat + j) % 256 ≠ 0),
      (k ≤ 1 → split n k secret streams h
        = Except.error "Threshold k must be greater than 1") ∧
      (1 < k → n < k → split n k secret streams h
        = Except.error "Total shares n must be greater than or equal to k") ∧
      (1 < k → k ≤ n → 255 < n → split n k secret streams h
        = Except.error "Total shares n cannot exceed 255") ∧
      (1 < k → k ≤ n → n ≤ 255 → secret = [] → split n k secret streams h
        = Except.error "Secret cannot be empty") := by
  intro n k secret streams h
  refine ⟨fun h1 => ?_, fun h1 h2 => ?_, fun h1 h2 h3 => ?_, fun h1 h2 h3 h4 => ?_⟩
  · unfold split
    rw [if_pos h1]
  · unfold split
    rw [if_neg (by omega), if_pos h2]
  · unfold split
    rw [if_neg (by omega), if_neg (by omega), if_pos h3]
  · unfold split
    rw [if_neg (by omega), if_neg (by omega), if_neg (by omega), if_pos h4]

/-- C3 witness: the spec's validation examples, at concrete inputs. -/
theorem claim_split_precondition_order_witness :
    split 5 1 [120] (fun _ _ => 1) (streamsNZ 1)
      = Except.error "Threshold k must be greater than 1" ∧
    split 2 3 [120] (fun _ _ => 1) (streamsNZ 3)
      = Except.error "Total shares n must be greater than or equal to k" ∧
    split 300 3 [120] (fun _ _ => 1) (streamsNZ 3)
      = Except.error "Total shares n cannot exceed 255" ∧
    split 5 3 [] (fun _ _ => 1) (streamsNZ 3)
      = Except.error "Secret cannot be empty" :=
  ⟨(claim_split_precondition_order 5 1 [120] _ _).1 (by decide),
   (claim_split_precondition_order 2 3 [120] _ _).2.1 (by decide) (by decide),
   (claim_split_precondition_order 300 3 [120] _ _).2.2.1 (by decide) (by decide) (by decide),
   (claim_split_precondition_order 5 3 [] _ _).2.2.2 (by decide) (by decide) (by decide) rfl⟩

/-- C4 counterexample: the claim's unconditional Ok clause fails — a
non-empty, length-consistent parts map with the distinct integer keys 1
and 257 makes `join` panic (the truncated x-coordinates collide), so it
returns neither an error nor Ok. -/
theorem claim_join_errors_counterexample :
    join [((1 : ℤ), [1]), ((257 : ℤ), [2])] = none := rfl

/-- C4 (amended): `join` returns `NoPartsProvided` iff the map is empty
and `InconsistentShareLength` iff it is non-empty with differing value
lengths; in the remaining case, provided the keys are pairwise distinct
modulo 256 (the counterexample shows this proviso is necessary), it
returns `Ok` of a sequence whose length is the common share length — with
no check that the number of parts reaches the split-time threshold. -/
theorem claim_join_errors (parts : List (ℤ × List ℕ)) :
    (join parts = some (Except.error "No parts provided") ↔ parts = []) ∧
    (join parts = some (Except.error "Varying lengths of part values")
      ↔ parts ≠ [] ∧ ¬ ∀ pr ∈ parts, pr.2.length = (parts.headD (0, [])).2.length) ∧
    (parts ≠ [] → (∀ pr ∈ parts, pr.2.length = (parts.headD (0, [])).2.length) →
      parts.Pairwise (fun a b => a.1 % 256 ≠ b.1 % 256) →
      ∃ s, join parts = some (Except.ok s)
        ∧ s.length = (parts.headD (0, [])).2.length) := by
  by_cases hne : parts = []
  · subst hne
    refine ⟨by simp [join_nil_eq], ⟨fun hmm => ?_, fun hmm => absurd rfl hmm.1⟩,
      fun hmm => absurd rfl hmm⟩
    rw [join_nil_eq] at hmm
    simp at hmm
  · by_cases hcons : ∀ pr ∈ parts, pr.2.length = (parts.headD (0, [])).2.length
    · have hnoterr := join_consistent_not_error parts hne hcons
      exact ⟨⟨fun hmm => absurd hmm (hnoterr _), fun hmm => absurd hmm hne⟩,
        ⟨fun hmm => absurd hmm (hnoterr _), fun hmm => absurd hcons hmm.2⟩,
        fun _ _ hdist => join_ok_of_consistent parts hne hcons hdist⟩
    · have hv := join_vary parts hne hcons
      refine ⟨⟨fun hmm => ?_, fun hmm => absurd hmm hne⟩,
        ⟨fun _ => ⟨hne, hcons⟩, fun _ => hv⟩,
        fun _ hc2 => absurd hc2 hcons⟩
      rw [hv] at hmm
      simp at hmm

/-- C4 witness: two consistent shares with out-of-range keys (and fewer
shares than any threshold `k ≥ 3` would require) still yield `Ok` of the
common length. -/
theorem claim_join_errors_witness :
    ∃ s, join [((300 : ℤ), [10, 20]), ((-3 : ℤ), [30, 40])] = some (Except.ok s)
      ∧ s.length = 2 :=
  (claim_join_errors [((300 : ℤ), [10, 20]), ((-3 : ℤ), [30, 40])]).2.2
    (by decide) (by decide) (by decide)

/-- C5 counterexample: the keys 2 and 258 are distinct `i32` values, yet
`join` reaches the panicking division-by-zero branch of `div` (both
truncate to the byte 2), refuting the claim as stated. -/
theorem claim_no_panic_counterexample :
    join [((2 : ℤ), [5]), ((258 : ℤ), [7])] = none := rfl

/-- C5 (amended): `join` never reaches the panicking division-by-zero
branch when the supplied keys are pairwise distinct modulo 256 (rather
than merely distinct as integers); `split` contains no division at all. -/
theorem claim_no_panic (parts : List (ℤ × List ℕ))
    (hdist : parts.Pairwise (fun a b => a.1 % 256 ≠ b.1 % 256)) :
    (join parts).isSome := by
  by_cases hne : parts = []
  · subst hne
    rfl
  · by_cases hcons : ∀ pr ∈ parts, pr.2.length = (parts.headD (0, [])).2.length
    · obtain ⟨s, hs, -⟩ := join_ok_of_consistent parts hne hcons hdist
      rw [hs]
      rfl
    · rw [join_vary parts hne hcons]
      rfl

/-- C5 witness: a mismatched-length parts map with distinct keys does not
panic (it returns the length error). -/
theorem claim_no_panic_witness :
    (join [((1 : ℤ), [2]), ((3 : ℤ), [4, 5])]).isSome :=
  claim_no_panic [((1 : ℤ), [2]), ((3 : ℤ), [4, 5])] (by decide)

/-- C6: `div` panics (modelled as `none`) exactly on a zero divisor,
returns 0 on a zero dividend, and otherwise looks up
`antilog[(log a - log b + 255) mod 255]`; `add` and `sub` are XOR. -/
theorem claim_div_spec : ∀ a b : ℕ,
    (b = 0 → divT a b = none) ∧
    (b ≠ 0 → a = 0 → divT a b = some 0) ∧
    (b ≠ 0 → a ≠ 0 →
      divT a b = some (EXP ((((LOG a : ℤ) - (LOG b : ℤ) + 255) % 255).toNat))) ∧
    addT a b = a ^^^ b ∧ subT a b = a ^^^ b := by
  intro a b
  refine ⟨fun hb => ?_, fun hb ha => ?_, fun hb ha => ?_, rfl, rfl⟩
  · unfold divT
    rw [if_pos hb]
  · unfold divT
    rw [if_neg hb, if_pos ha]
  · unfold divT
    rw [if_neg hb, if_neg ha]

/-- C6 witness: the three branches of `div` at concrete bytes. -/
theorem claim_div_spec_witness :
    divT 7 0 = none ∧ divT 0 5 = some 0 ∧
    divT 6 3 = some (EXP ((((LOG 6 : ℤ) - (LOG 3 : ℤ) + 255) % 255).toNat)) ∧
    addT 6 3 = 6 ^^^ 3 :=
  ⟨(claim_div_spec 7 0).1 rfl, (claim_div_spec 0 5).2.1 (by decide) rfl,
   (claim_div_spec 6 3).2.2.1 (by decide) (by decide), (claim_div_spec 6 3).2.2.2.1⟩

/-- C7: `generate` returns `degree + 1` coefficients, coefficient 0 is the
secret byte, and the leading coefficient is nonzero (being resampled from
the stream until nonzero — the stream hypothesis is the loop's
termination condition). -/
theorem claim_generate_shape (degree : ℕ) (c : ℕ) (stream : ℕ → ℕ)
    (h : ∃ j, stream (degree + j) % 256 ≠ 0) (hdeg : 1 ≤ degree) (hc : c < 256) :
    (generate degree c stream h).length = degree + 1 ∧
    (generate degree c stream h).getD 0 0 = c ∧
    (generate degree c stream h).getD degree 0 ≠ 0 :=
  ⟨generate_length degree hdeg c hc stream h,
   generate_getD_zero degree hdeg c hc stream h,
   generate_getD_last degree hdeg c hc stream h⟩

theorem streamNZ9 : ∃ j, (fun _ : ℕ => 9) (1 + j) % 256 ≠ 0 := ⟨0, by decide⟩

/-- C7 witness: degree 1, constant byte 7, constant-9 stream. -/
theorem claim_generate_shape_witness :
    (generate 1 7 (fun _ => 9) streamNZ9).length = 2 ∧
    (generate 1 7 (fun _ => 9) streamNZ9).getD 0 0 = 7 ∧
    (generate 1 7 (fun _ => 9) streamNZ9).getD 1 0 ≠ 0 :=
  claim_generate_shape 1 7 (fun _ => 9) streamNZ9 (by decide) (by decide)

/-- C8: Horner evaluation computes the GF(256) monomial sum
`⨁_i mul(p[i], x^i)`, and evaluation at 0 of a non-empty coefficient list
returns the constant coefficient. -/
theorem claim_eval_horner (p : List ℕ) (hp : ∀ a ∈ p, a < 256) (x : ℕ) (hx : x < 256) :
    evalT p x = sumPolyT p x ∧ (p ≠ [] → evalT p 0 = p.getD 0 0) :=
  ⟨evalT_eq_sumPolyT p hp hx, fun hne => evalT_at_zero p hne⟩

/-- C8 witness: the coefficient list `[3, 5]` at `x = 2`. -/
theorem claim_eval_horner_witness :
    evalT [3, 5] 2 = sumPolyT [3, 5] 2 ∧ ([3, 5] ≠ [] → evalT [3, 5] 0 = [3, 5].getD 0 0) :=
  claim_eval_horner [3, 5] (by decide) 2 (by decide)

/-- C9: shape of a successful split — exactly `n` shares keyed `1..n`,
every value as long as the secret, and byte `i` of the share with key
`m + 1` is the evaluation at `m + 1` of the degree-`(k-1)` polynomial
generated for secret byte `i`. -/
theorem claim_split_shape (n k : ℤ) (secret : List ℕ) (streams : ℕ → ℕ → ℕ)
    (h : ∀ i, ∃ j, streams i ((k - 1).toNat + j) % 256 ≠ 0)
    (parts : List (ℤ × List ℕ))
    (hsplit : split n k secret streams h = Except.ok parts) :
    parts.length = n.toNat ∧
    parts.map Prod.fst = (List.range n.toNat).map (fun m => ((m + 1 : ℕ) : ℤ)) ∧
    (∀ pr ∈ parts, pr.2.length = secret.length) ∧
    (∀ m, m < n.toNat → ∀ i, i < secret.length →
      (parts.getD m (0, [])).2.getD i 0
        = evalT (generate (k - 1).toNat (secret.getD i 0) (streams i) (h i)) (m + 1)) := by
  have hk : 1 < k := by
    by_contra h0
    unfold split at hsplit
    rw [if_pos (by omega)] at hsplit
    exact absurd hsplit (by simp)
  have hkn : k ≤ n := by
    by_contra h0
    unfold split at hsplit
    rw [if_neg (by omega), if_pos (by omega)] at hsplit
    exact absurd hsplit (by simp)
  have hn : n ≤ 255 := by
    by_contra h0
    unfold split at hsplit
    rw [if_neg (by omega), if_neg (by omega), if_pos (by omega)] at hsplit
    exact absurd hsplit (by simp)
  have hs : secret ≠ [] := by
    by_contra h0
    unfold split at hsplit
    rw [if_neg (by omega), if_neg (by omega), if_neg (by omega),
      if_pos (by simpa using h0)] at hsplit
    exact absurd hsplit (by simp)
  rw [split_ok n k secret streams h hk hkn hn hs] at hsplit
  injection hsplit with hX
  subst hX
  refine ⟨by rw [List.length_map, List.length_range], ?_, ?_, ?_⟩
  · rw [List.map_map]
    rfl
  · intro pr hpr
    obtain ⟨m, -, rfl⟩ := List.mem_map.mp hpr
    simp [shareVec, List.length_map, List.length_range]
  · intro m hm i hi
    have hmlt : m < ((List.range n.toNat).map (fun m =>
        (((m + 1 : ℕ) : ℤ), shareVec k secret streams h (m + 1)))).length := by
      rw [List.length_map, List.length_range]
      exact hm
    rw [List.getD_eq_getElem _ _ hmlt, List.getElem_map, List.getElem_range]
    show (shareVec k secret streams h (m + 1)).getD i 0 = _
    unfold shareVec
    have hilt : i < ((List.range secret.length).map
        (fun i => evalT (polyFor k secret streams h i) (m + 1))).length := by
      rw [List.length_map, List.length_range]
      exact hi
    rw [List.getD_eq_getElem _ _ hilt, List.getElem_map, List.getElem_range]
    rfl

/-- C9 witness: the shape facts at `split 3 2 [7]` under the constant-1
stream. -/
theorem claim_split_shape_witness :
    [((1 : ℤ), [6]), ((2 : ℤ), [5]), ((3 : ℤ), [4])].length = (3 : ℤ).toNat ∧
    [((1 : ℤ), [6]), ((2 : ℤ), [5]), ((3 : ℤ), [4])].map Prod.fst
      = (List.range (3 : ℤ).toNat).map (fun m => ((m + 1 : ℕ) : ℤ)) ∧
    (∀ pr ∈ [((1 : ℤ), [6]), ((2 : ℤ), [5]), ((3 : ℤ), [4])],
      pr.2.length = [7].length) ∧
    (∀ m, m < (3 : ℤ).toNat → ∀ i, i < [7].length →
      (([((1 : ℤ), [6]), ((2 : ℤ), [5]), ((3 : ℤ), [4])]).getD m (0, [])).2.getD i 0
        = evalT (generate ((2 : ℤ) - 1).toNat ([7].getD i 0) ((fun _ _ => 1) i)
            (streamsNZ 2 i)) (m + 1)) :=
  claim_split_shape 3 2 [7] (fun _ _ => 1) (streamsNZ 2)
    [((1 : ℤ), [6]), ((2 : ℤ), [5]), ((3 : ℤ), [4])] rfl

/-- C10: `join` performs no index-range validation — each key is truncated
to its low 8 bits (`idx as u8`, i.e. mod 256), so the result depends only
on the keys mod 256, and any non-empty consistent map whose keys are
distinct mod 256 (including keys 0, negative, or above 255) is accepted
and yields `Ok`. -/
theorem claim_join_truncates (parts : List (ℤ × List ℕ)) :
    join (parts.map (fun pr => (pr.1 % 256, pr.2))) = join parts ∧
    (parts ≠ [] → (∀ pr ∈ parts, pr.2.length = (parts.headD (0, [])).2.length) →
      parts.Pairwise (fun a b => a.1 % 256 ≠ b.1 % 256) →
      ∃ s, join parts = some (Except.ok s)) := by
  refine ⟨join_mod parts, fun hne hcons hdist => ?_⟩
  obtain ⟨s, hs, -⟩ := join_ok_of_consistent parts hne hcons hdist
  exact ⟨s, hs⟩

/-- C10 witness: truncation congruence at keys 300 and −3, and acceptance
of the out-of-range keys 513 and 0. -/
theorem claim_join_truncates_witness :
    join ([((300 : ℤ), [10]), ((-3 : ℤ), [20])].map (fun pr => (pr.1 % 256, pr.2)))
      = join [((300 : ℤ), [10]), ((-3 : ℤ), [20])] ∧
    ∃ s, join [((513 : ℤ), [9]), ((0 : ℤ), [12])] = some (Except.ok s) :=
  ⟨(claim_join_truncates [((300 : ℤ), [10]), ((-3 : ℤ), [20])]).1,
   (claim_join_truncates [((513 : ℤ), [9]), ((0 : ℤ), [12])]).2
     (by decide) (by decide) (by decide)⟩

end Shamir
